import Mathlib

/-!
A shallow embedding of the liquidation engine of the zo-keeper repository
(`src/liquidator/liquidation.rs`, with the scan loop of `liquidate_loop` and
the branch executors), together with theorems settling the specification
claims about branch selection, the size-halving retry protocol, bankruptcy
settlement, order cancellation, initial transfer sizing and the scan loop.

Conventions of the embedding:
* `I80F48` fixed-point numbers are represented by their raw integer
  numerator: a fixed-point value `x` is the integer `raw x = x * 2^48`.
  Comparisons, negation, absolute value and the zero test on `I80F48` are
  the corresponding integer operations on the raw representation.
* Rust `i64` arithmetic: `/` truncates toward zero, which is `Int.tdiv`;
  the fixed crate's `to_num::<i64>()` discards fractional bits rounding
  toward negative infinity, which is `Int.fdiv _ (2^48)`.
* Fallible operations return `Except ErrorCode _`; the outcomes of the
  external transaction-submission collaborator are an environment
  `Nat → Except ErrorCode Unit` giving the classified result of each
  successive `retry_send` call.
-/

deriving instance DecidableEq for Except

namespace ZoKeeper

/-- Error taxonomy of the liquidator (the `ErrorCode` values used by
`liquidation.rs`; spec section 7). -/
inductive ErrorCode
| CollateralFailure
| NoCollateral
| NoPositions
| CancelFailure
| LiquidationOverExposure
| LiquidationFailure
| SettlementFailure
deriving DecidableEq, Repr

/-- Embedding of Rust `Iterator::min_by_key` as a left fold: the running
minimum is replaced only when a strictly smaller key appears, so the first
element attaining the minimum wins ties. -/
def minByKeyFold (key : α → Int) (acc : α) : List α → α
| [] => acc
| y :: ys => minByKeyFold key (if key y < key acc then y else acc) ys

/-- Rust `Iterator::min_by_key`: `none` on an empty iterator, otherwise the
first element with the least key. -/
def minByKey (key : α → Int) : List α → Option α
| [] => none
| x :: xs => some (minByKeyFold key x xs)

/-- Embedding of Rust `Iterator::max_by_key` as a left fold: the running
maximum is replaced whenever a key at least as large appears, so the last
element attaining the maximum wins ties. -/
def maxByKeyFold (key : α → Int) (acc : α) : List α → α
| [] => acc
| y :: ys => maxByKeyFold key (if key acc ≤ key y then y else acc) ys

/-- Rust `Iterator::max_by_key`: `none` on an empty iterator, otherwise the
last element with the greatest key. -/
def maxByKey (key : α → Int) : List α → Option α
| [] => none
| x :: xs => some (maxByKeyFold key x xs)

/-- Worst collateral selection (`liquidate`, liquidation.rs lines 121-126):
`colls.iter().enumerate().min_by_key(|a| a.1)` over the valued collateral
vector. -/
def worstCollateral (colls : List Int) : Option (Nat × Int) :=
  minByKey (fun p => p.2) colls.enum

/-- Best-quote selection (`liquidate`, liquidation.rs lines 130-140):
`collateral_tuple.max_by_key(|a| a.1)`, forced to index 0 with value zero
when the maximum is exactly zero. -/
def bestQuote (colls : List Int) : Option (Nat × Int) :=
  match maxByKey (fun p => p.2) colls.enum with
  | some x => if x.2 = 0 then some (0, 0) else some x
  | none => none

/-- Valued positions (`liquidate`, liquidation.rs lines 143-150): per market
index, position size times mark price, over the zip of
`control.open_orders_agg` with `cache.marks`. -/
def positionNotionals (posSizes marks : List Int) : List Int :=
  (posSizes.zip marks).map (fun pm => pm.1 * pm.2)

/-- Largest-position selection (`liquidate`, liquidation.rs lines 152-164):
`positions.max_by_key(|a| a.1.abs())`, demoted to `none` when the selected
notional is zero. -/
def largestPosition (positions : List Int) : Option (Nat × Int) :=
  match maxByKey (fun p => |p.2|) positions.enum with
  | some x => if x.2 = 0 then none else some x
  | none => none

/-- Spot-bankruptcy predicate (`liquidate`, liquidation.rs line 187):
`colls.iter().all(|col| col < &DUST_THRESHOLD)`; the dust threshold constant
of `zo_abi` is kept as the parameter `dust`. -/
def spotBankrupt (dust : Int) (colls : List Int) : Bool :=
  colls.all (fun c => decide (c < dust))

/-- Specification-side maximum of a value vector (used to state the argmax
selection claims). -/
def maxVal : List Int → Int
| [] => 0
| c :: cs => cs.foldl max c

/-- Specification-side maximum absolute value of a vector (zero on the empty
or all-zero vector). -/
def maxAbsVal (l : List Int) : Int :=
  l.foldl (fun m v => max m |v|) 0

/-- Modelled from the spec: `margin_utils::largest_open_order` is called by
`liquidate` and `cancel` but its body is not under `src/`. Spec section 4.5:
"Finds the resting order with the largest absolute aggregate size across all
markets for the account (first-max-wins on ties); no resting orders is a
no-op". Given the per-market aggregate order sizes it returns the first
index attaining the maximum absolute size, and `none` when every aggregate
size is zero (no resting orders). -/
def largestOpenOrder (orderAggs : List Int) : Option Nat :=
  let m := maxAbsVal orderAggs
  if m = 0 then none
  else (orderAggs.enum.find? (fun p => decide (|p.2| = m))).map (fun p => p.1)

/-- The branch picked by the strategy selector inside `liquidate`. -/
inductive Decision
| perpLiquidationBranch (positionIndex : Nat) (liqeeWasLong : Bool)
| cancelBranch
| settleBankruptcyBranch
| spotLiquidationBranch (colIndex quoteIndex : Nat)
| noOp
deriving DecidableEq, Repr

/-- Result of one `liquidate` triage: an out-of-bounds vector index (a Rust
panic), an `ErrorCode`, or the selected branch. -/
inductive LiquidateResult
| indexPanic
| failure (e : ErrorCode)
| done (d : Decision)
deriving DecidableEq, Repr

/-- Decision portion of `liquidate` (liquidation.rs lines 100-342), up to and
including branch selection.  Inputs: the valued collateral vector `colls`
(the output of the external `get_actual_collateral_vec`), the raw position
sizes `posSizes` (`control.open_orders_agg[i].pos_size`), the mark prices
`marks` (`cache.marks[i].price`), the aggregate resting-order sizes
`orderAggs` (consumed by `largest_open_order`), the length `marketInfosLen`
of the `market_infos` vector, and the dust threshold `dust`.

`state.perp_markets[position_index]` is a fixed-size array read and cannot
go out of bounds, while `market_infos[position_index]` indexes a `Vec` and
panics when `position_index` is out of bounds; both reads happen before
branch selection. -/
def liquidate (colls posSizes marks orderAggs : List Int)
    (marketInfosLen : Nat) (dust : Int) : LiquidateResult :=
  match worstCollateral colls with
  | none => .failure .NoCollateral
  | some (colIndex, minCol) =>
    match bestQuote colls with
    | none => .failure .NoCollateral
    | some quoteInfoVal =>
      let quoteIdx : Nat := quoteInfoVal.1
      let positions := positionNotionals posSizes marks
      match maxByKey (fun p => |p.2|) positions.enum with
      | none => .failure .NoPositions
      | some pmax =>
        let position : Option (Nat × Int) := if pmax.2 = 0 then none else some pmax
        let hasPositions : Bool := position.isSome
        let positionIndex : Nat := match position with | some iv => iv.1 | none => 0
        let maxPositionNotional : Int := match position with | some iv => iv.2 | none => 0
        if marketInfosLen ≤ positionIndex then .indexPanic
        else
          let isSpotBankrupt := spotBankrupt dust colls
          if hasPositions &&
              (decide (-minCol ≤ |maxPositionNotional|) || isSpotBankrupt) then
            .done (.perpLiquidationBranch positionIndex
              (decide (0 < maxPositionNotional)))
          else if isSpotBankrupt && !hasPositions then
            match largestOpenOrder orderAggs with
            | some _ => .done .cancelBranch
            | none => .done .settleBankruptcyBranch
          else if minCol < 0 then
            .done (.spotLiquidationBranch colIndex quoteIdx)
          else
            match largestOpenOrder orderAggs with
            | some _ => .done .cancelBranch
            | none => .done .noOp

/-- Initial perp transfer sizing (`liquidate_perp_position`, liquidation.rs
lines 509-517) on raw fixed-point integers: the liquidator's total collateral
value divided by the mark price (`I80F48` division: the numerator is shifted
by 48 fractional bits and the quotient truncated), converted with
`to_num::<i64>` (discarding fractional bits toward negative infinity), then
`safe_div` by the market lot size (`i64` division) and `safe_mul` by 10.
The helpers `safe_div`/`safe_mul` of `math.rs` are checked `i64` division
and multiplication. -/
def perpAssetTransferLots (total markPrice lotSize : Int) : Int :=
  (((total * 2 ^ 48).tdiv markPrice).fdiv (2 ^ 48)).tdiv lotSize * 10

/-- Initial spot transfer sizing (`liquidate_spot_position`, liquidation.rs
lines 644-652): as `perpAssetTransferLots` with the asset oracle price and
`10 ^ decimals` in place of mark price and lot size. -/
def spotAssetTransferAmount (total spotPrice : Int) (decimals : Nat) : Int :=
  (((total * 2 ^ 48).tdiv spotPrice).fdiv (2 ^ 48)).tdiv (10 ^ decimals) * 10

/-- The spec's perp sizing formula (spec section 4.3):
`lots = floor(floor(callerTotalCollateralValue / markPrice) / lotSize) × 10`,
stated on raw fixed-point integers; since value `x` has raw integer
`x * 2^48`, the real quotient of the two values has floor
`Int.fdiv total markPrice`. -/
def specPerpLots (total markPrice lotSize : Int) : Int :=
  (total.fdiv markPrice).fdiv lotSize * 10

/-- The spec's spot sizing formula (spec section 4.4):
`amount = floor(floor(callerTotalCollateralValue / assetOraclePrice) / 10^assetDecimals) × 10`. -/
def specSpotAmount (total spotPrice : Int) (decimals : Nat) : Int :=
  (total.fdiv spotPrice).fdiv (10 ^ decimals) * 10

/-- The size-halving retry loop of `liquidate_perp_position` (liquidation.rs
lines 567-615): up to `fuel = reduction_max = 5` iterations; each iteration
submits the compound instruction set with the current `lots` (outcome
`env k` of the `k`-th `retry_send` call); success returns `Ok`, an
over-exposure rejection halves `lots` by `i64` division and continues, any
other rejection is immediately `LiquidationFailure`, and running out of
iterations is `LiquidationFailure`.  Returns the submitted sizes in order,
paired with the outcome. -/
def liquidatePerpLoop (env : Nat → Except ErrorCode Unit) :
    Int → Nat → Nat → List Int × Except ErrorCode Unit
| _lots, _k, 0 => ([], .error .LiquidationFailure)
| lots, k, fuel + 1 =>
  match env k with
  | .ok _ => ([lots], .ok ())
  | .error e =>
    match e with
    | .LiquidationOverExposure =>
      let rest := liquidatePerpLoop env (lots.tdiv 2) (k + 1) fuel
      (lots :: rest.1, rest.2)
    | _ => ([lots], .error .LiquidationFailure)

/-- `liquidate_perp_position` (liquidation.rs lines 459-616): initial sizing
followed by the halving retry loop with `reduction_max = 5`. -/
def liquidate_perp_position (env : Nat → Except ErrorCode Unit)
    (total markPrice lotSize : Int) : List Int × Except ErrorCode Unit :=
  liquidatePerpLoop env (perpAssetTransferLots total markPrice lotSize) 0 5

/-- The size-halving retry loop of `liquidate_spot_position` (liquidation.rs
lines 674-713), structurally identical to the perp loop: success returns
`Ok`, over-exposure halves `asset_transfer_amount` and continues, any other
rejection is immediately `LiquidationFailure`, exhaustion is
`LiquidationFailure`. -/
def liquidateSpotLoop (env : Nat → Except ErrorCode Unit) :
    Int → Nat → Nat → List Int × Except ErrorCode Unit
| _amount, _k, 0 => ([], .error .LiquidationFailure)
| amount, k, fuel + 1 =>
  match env k with
  | .ok _ => ([amount], .ok ())
  | .error e =>
    match e with
    | .LiquidationOverExposure =>
      let rest := liquidateSpotLoop env (amount.tdiv 2) (k + 1) fuel
      (amount :: rest.1, rest.2)
    | _ => ([amount], .error .LiquidationFailure)

/-- `liquidate_spot_position` (liquidation.rs lines 618-714): initial sizing
followed by the halving retry loop with `reduction_max = 5`. -/
def liquidate_spot_position (env : Nat → Except ErrorCode Unit)
    (total spotPrice : Int) (decimals : Nat) : List Int × Except ErrorCode Unit :=
  liquidateSpotLoop env (spotAssetTransferAmount total spotPrice decimals) 0 5

/-- The post-liquidation rebalancing of the spot branch of `liquidate`
(liquidation.rs lines 273-319): first the quote leg, then the collateral
leg; a leg whose serum market or vault signer is not registered is logged
and skipped; an invoked `swap::swap_asset` failure propagates immediately
through `?`.  `registered i` models both `serum_markets.get(&i)` and
`serum_vault_signers.get(&i)` being present, `swapEnv i` the outcome of
`swap_asset` on index `i`.  Returns the indices on which the swap
collaborator was invoked, in order, paired with the outcome. -/
def spotRebalance (quoteIdx colIndex : Nat) (registered : Nat → Bool)
    (swapEnv : Nat → Except ErrorCode Unit) :
    List Nat × Except ErrorCode Unit :=
  if registered quoteIdx then
    match swapEnv quoteIdx with
    | .error e => ([quoteIdx], .error e)
    | .ok _ =>
      if registered colIndex then
        match swapEnv colIndex with
        | .error e => ([quoteIdx, colIndex], .error e)
        | .ok _ => ([quoteIdx, colIndex], .ok ())
      else ([quoteIdx], .ok ())
  else
    if registered colIndex then
      match swapEnv colIndex with
      | .error e => ([colIndex], .error e)
      | .ok _ => ([colIndex], .ok ())
    else ([], .ok ())

/-- The collection loop of `settle_bankruptcy` (liquidation.rs lines
739-781): iterate the collateral indices in ascending order over the
account's raw balances; skip an index whose balance is non-negative; for an
eligible index push the settle instruction's `retry_send` outcome
(`settleEnv i`) onto the results, then, if a serum market and vault signer
are registered for the index, invoke `swap::swap_asset` whose failure
propagates immediately through `?`.  Returns the indices whose settle
instruction was submitted, paired with either the propagated swap error or
the collected settle outcomes. -/
def settleBankruptcyLoop (settleEnv swapEnv : Nat → Except ErrorCode Unit)
    (registered : Nat → Bool) :
    List Int → Nat → List Nat × Except ErrorCode (List (Except ErrorCode Unit))
| [], _i => ([], .ok [])
| b :: rest, i =>
  if 0 ≤ b then settleBankruptcyLoop settleEnv swapEnv registered rest (i + 1)
  else
    let r := settleEnv i
    let swapStep : Except ErrorCode Unit :=
      if registered i then swapEnv i else .ok ()
    match swapStep with
    | .error e => ([i], .error e)
    | .ok _ =>
      let next := settleBankruptcyLoop settleEnv swapEnv registered rest (i + 1)
      (i :: next.1, next.2.map (fun l => r :: l))

/-- The result scan of `settle_bankruptcy` (liquidation.rs lines 783-803):
walk the collected settle outcomes in order and return `SettlementFailure`
at the first failed leg, `Ok` when none failed. -/
def scanSettleResults : List (Except ErrorCode Unit) → Except ErrorCode Unit
| [] => .ok ()
| .ok _ :: rest => scanSettleResults rest
| .error _ :: _rest => .error .SettlementFailure

/-- `settle_bankruptcy` (liquidation.rs lines 716-806): the collection loop
over the balances followed by the result scan.  Returns the settled indices
paired with the call's outcome. -/
def settle_bankruptcy (balances : List Int)
    (settleEnv swapEnv : Nat → Except ErrorCode Unit)
    (registered : Nat → Bool) : List Nat × Except ErrorCode Unit :=
  match settleBankruptcyLoop settleEnv swapEnv registered balances 0 with
  | (attempted, .error e) => (attempted, .error e)
  | (attempted, .ok results) => (attempted, scanSettleResults results)

/-- Modelled from the spec: `utils::retry_send` is called throughout
`liquidation.rs` but its body is not under `src/`.  Spec section 6 gives
`retrySend(buildRequest, maxAttempts) -> signature | error` and section 4.5
calls it a plain send-retry of up to `maxAttempts` attempts: return the
first successful attempt, otherwise the final attempt's error.  `env k` is
the outcome of the `k`-th send attempt; the zero-attempt base case never
arises in the embedded call sites, which all pass `maxAttempts = 5`. -/
def retrySendModel (env : Nat → Except ErrorCode Unit) :
    Nat → Nat → Except ErrorCode Unit
| _k, 0 => .error .CancelFailure
| k, n + 1 =>
  match env k with
  | .ok u => .ok u
  | .error e => if n = 0 then .error e else retrySendModel env (k + 1) n

/-- The single force-cancel-all instruction built by `cancel_orders`
(liquidation.rs lines 419-442): the target market and the fixed
per-call cancellation limit. -/
structure CancelInstruction where
  marketIndex : Nat
  limit : Nat
deriving DecidableEq, Repr

/-- `cancel_orders` (liquidation.rs lines 399-456): build the
force-cancel-all instruction with `limit: 32` for the chosen market, submit
it through `retry_send(_, 5)`, and report `CancelFailure` on an unrecovered
failure.  Returns the instruction that was submitted paired with the
outcome. -/
def cancel_orders (marketIndex : Nat) (env : Nat → Except ErrorCode Unit) :
    CancelInstruction × Except ErrorCode Unit :=
  let ix : CancelInstruction := ⟨marketIndex, 32⟩
  match retrySendModel env 0 5 with
  | .ok _ => (ix, .ok ())
  | .error _ => (ix, .error .CancelFailure)

/-- `cancel` (liquidation.rs lines 345-397): a no-op success when
`largest_open_order` finds no resting orders, otherwise `cancel_orders` on
the selected market.  Returns the submitted instruction, if any, paired
with the outcome. -/
def cancel (orderAggs : List Int) (env : Nat → Except ErrorCode Unit) :
    Option CancelInstruction × Except ErrorCode Unit :=
  match largestOpenOrder orderAggs with
  | none => (none, .ok ())
  | some oo_index =>
    let r := cancel_orders oo_index env
    (some r.1, r.2)

/-- Outcome of one iteration of the scan loop: continue to the next tick
(with a flag recording whether a check failure was logged), or terminate
the process by panicking. -/
inductive TickOutcome
| continued (loggedError : Bool)
| panicked
deriving DecidableEq, Repr

/-- One iteration of `liquidate_loop` (liquidation.rs lines 41-70): the
outcome of `check_all_accounts` is matched, an error being logged and the
loop continuing; when the 6000-second refresh interval has elapsed
(`refreshDue`), `database.refresh_accounts(st).unwrap()` panics on an error
and otherwise continues. -/
def liquidate_loop_tick (checkResult : Except Unit Nat) (refreshDue : Bool)
    (refreshResult : Except Unit Unit) : TickOutcome :=
  let logged := match checkResult with
    | .ok _ => false
    | .error _ => true
  if refreshDue then
    match refreshResult with
    | .ok _ => .continued logged
    | .error _ => .panicked
  else .continued logged

/-! ### Properties of the selection combinators -/

theorem minByKeyFold_mem (key : α → Int) (acc : α) (l : List α) :
    minByKeyFold key acc l = acc ∨ minByKeyFold key acc l ∈ l := by
  induction l generalizing acc with
  | nil => exact Or.inl rfl
  | cons y ys ih =>
    simp only [minByKeyFold]
    by_cases hc : key y < key acc
    · simp only [if_pos hc]
      rcases ih y with h | h
      · right; rw [h]; exact List.mem_cons_self y ys
      · exact Or.inr (List.mem_cons_of_mem _ h)
    · simp only [if_neg hc]
      rcases ih acc with h | h
      · exact Or.inl h
      · exact Or.inr (List.mem_cons_of_mem _ h)

theorem minByKeyFold_le (key : α → Int) (acc : α) (l : List α) :
    key (minByKeyFold key acc l) ≤ key acc ∧
      ∀ y ∈ l, key (minByKeyFold key acc l) ≤ key y := by
  induction l generalizing acc with
  | nil => exact ⟨le_refl _, by simp⟩
  | cons y ys ih =>
    simp only [minByKeyFold]
    by_cases hc : key y < key acc
    · simp only [if_pos hc]
      obtain ⟨h1, h2⟩ := ih y
      refine ⟨le_trans h1 (le_of_lt hc), ?_⟩
      intro z hz
      rcases List.mem_cons.mp hz with rfl | hz
      · exact h1
      · exact h2 z hz
    · simp only [if_neg hc]
      obtain ⟨h1, h2⟩ := ih acc
      refine ⟨h1, ?_⟩
      intro z hz
      rcases List.mem_cons.mp hz with rfl | hz
      · exact le_trans h1 (not_lt.mp hc)
      · exact h2 z hz

theorem minByKeyFold_first (key : α → Int) (acc : α) (l : List α)
    (h : key acc ≤ key (minByKeyFold key acc l)) :
    minByKeyFold key acc l = acc := by
  induction l generalizing acc with
  | nil => rfl
  | cons y ys ih =>
    simp only [minByKeyFold] at h ⊢
    by_cases hc : key y < key acc
    · exfalso
      simp only [if_pos hc] at h
      have := (minByKeyFold_le key y ys).1
      omega
    · simp only [if_neg hc] at h ⊢
      exact ih acc h

theorem maxByKeyFold_mem (key : α → Int) (acc : α) (l : List α) :
    maxByKeyFold key acc l = acc ∨ maxByKeyFold key acc l ∈ l := by
  induction l generalizing acc with
  | nil => exact Or.inl rfl
  | cons y ys ih =>
    simp only [maxByKeyFold]
    by_cases hc : key acc ≤ key y
    · simp only [if_pos hc]
      rcases ih y with h | h
      · right; rw [h]; exact List.mem_cons_self y ys
      · exact Or.inr (List.mem_cons_of_mem _ h)
    · simp only [if_neg hc]
      rcases ih acc with h | h
      · exact Or.inl h
      · exact Or.inr (List.mem_cons_of_mem _ h)

theorem maxByKeyFold_ge (key : α → Int) (acc : α) (l : List α) :
    key acc ≤ key (maxByKeyFold key acc l) ∧
      ∀ y ∈ l, key y ≤ key (maxByKeyFold key acc l) := by
  induction l generalizing acc with
  | nil => exact ⟨le_refl _, by simp⟩
  | cons y ys ih =>
    simp only [maxByKeyFold]
    by_cases hc : key acc ≤ key y
    · simp only [if_pos hc]
      obtain ⟨h1, h2⟩ := ih y
      refine ⟨le_trans hc h1, ?_⟩
      intro z hz
      rcases List.mem_cons.mp hz with rfl | hz
      · exact h1
      · exact h2 z hz
    · simp only [if_neg hc]
      obtain ⟨h1, h2⟩ := ih acc
      refine ⟨h1, ?_⟩
      intro z hz
      rcases List.mem_cons.mp hz with rfl | hz
      · exact le_trans (le_of_lt (not_le.mp hc)) h1
      · exact h2 z hz

/-- Ties in the enumerated minimum fold go to the lowest index: any later
pair whose value does not exceed the selected minimum sits at an index at
least the selected one.  The accumulator's index is below every index of
the enumerated tail. -/
theorem minSnd_enumFrom_first :
    ∀ (vs : List Int) (n : Nat) (acc : Nat × Int), acc.1 < n →
      ∀ p ∈ List.enumFrom n vs,
        p.2 ≤ (minByKeyFold (fun q => q.2) acc (List.enumFrom n vs)).2 →
          (minByKeyFold (fun q => q.2) acc (List.enumFrom n vs)).1 ≤ p.1 := by
  intro vs
  induction vs with
  | nil => intro n acc _ p hp; simp [List.enumFrom] at hp
  | cons v vs ih =>
    intro n acc hacc p hp hple
    rw [List.enumFrom_cons] at hp hple ⊢
    simp only [minByKeyFold] at hple ⊢
    rcases List.mem_cons.mp hp with rfl | hp
    · by_cases hc : ((n, v) : Nat × Int).2 < acc.2
      · simp only [if_pos hc] at hple ⊢
        have hle := (minByKeyFold_le (fun q => q.2) ((n, v) : Nat × Int)
          (List.enumFrom (n + 1) vs)).1
        have heq := minByKeyFold_first (fun q => q.2) ((n, v) : Nat × Int)
          (List.enumFrom (n + 1) vs) (by exact hple)
        rw [heq]
      · simp only [if_neg hc] at hple ⊢
        have hge : acc.2 ≤ v := not_lt.mp hc
        have heq := minByKeyFold_first (fun q => q.2) acc
          (List.enumFrom (n + 1) vs) (le_trans hge hple)
        rw [heq]
        exact le_of_lt hacc
    · by_cases hc : ((n, v) : Nat × Int).2 < acc.2
      · simp only [if_pos hc] at hple ⊢
        exact ih (n + 1) (n, v) (Nat.lt_succ_self n) p hp hple
      · simp only [if_neg hc] at hple ⊢
        exact ih (n + 1) acc (Nat.lt_succ_of_lt hacc) p hp hple

/-- The second component of an enumerated pair is an element of the list. -/
theorem snd_mem_of_mem_enumFrom :
    ∀ (l : List α) (n : Nat) (p : Nat × α), p ∈ List.enumFrom n l → p.2 ∈ l := by
  intro l
  induction l with
  | nil => intro n p hp; simp [List.enumFrom] at hp
  | cons v vs ih =>
    intro n p hp
    rw [List.enumFrom_cons] at hp
    rcases List.mem_cons.mp hp with rfl | hp
    · exact List.mem_cons_self v vs
    · exact List.mem_cons_of_mem _ (ih (n + 1) p hp)

/-- Every element of the list appears in its enumeration at some index. -/
theorem exists_mem_enumFrom_of_mem :
    ∀ (l : List α) (n : Nat) (v : α), v ∈ l → ∃ i, (i, v) ∈ List.enumFrom n l := by
  intro l
  induction l with
  | nil => intro n v hv; simp at hv
  | cons w ws ih =>
    intro n v hv
    rw [List.enumFrom_cons]
    rcases List.mem_cons.mp hv with rfl | hv
    · exact ⟨n, List.mem_cons_self _ _⟩
    · obtain ⟨i, hi⟩ := ih (n + 1) v hv
      exact ⟨i, List.mem_cons_of_mem _ hi⟩

/-! ### Properties of the specification-side maxima -/

theorem foldl_max_spec :
    ∀ (l : List Int) (a : Int),
      (l.foldl max a = a ∨ l.foldl max a ∈ l) ∧ a ≤ l.foldl max a ∧
        ∀ v ∈ l, v ≤ l.foldl max a := by
  intro l
  induction l with
  | nil => intro a; exact ⟨Or.inl rfl, le_refl _, by simp⟩
  | cons w ws ih =>
    intro a
    simp only [List.foldl_cons]
    obtain ⟨hmem, hle, hall⟩ := ih (max a w)
    refine ⟨?_, le_trans (le_max_left a w) hle, ?_⟩
    · rcases hmem with h | h
      · rw [h]
        rcases max_choice a w with h' | h'
        · exact Or.inl h'
        · right; rw [h']; exact List.mem_cons_self w ws
      · exact Or.inr (List.mem_cons_of_mem _ h)
    · intro v hv
      rcases List.mem_cons.mp hv with rfl | hv
      · exact le_trans (le_max_right a v) hle
      · exact hall v hv

theorem maxVal_mem : ∀ (c : Int) (cs : List Int), maxVal (c :: cs) ∈ c :: cs := by
  intro c cs
  simp only [maxVal]
  rcases (foldl_max_spec cs c).1 with h | h
  · rw [h]; exact List.mem_cons_self c cs
  · exact List.mem_cons_of_mem _ h

theorem le_maxVal : ∀ (c : Int) (cs : List Int), ∀ v ∈ c :: cs, v ≤ maxVal (c :: cs) := by
  intro c cs v hv
  simp only [maxVal]
  rcases List.mem_cons.mp hv with rfl | hv
  · exact (foldl_max_spec cs v).2.1
  · exact (foldl_max_spec cs c).2.2 v hv

theorem foldl_maxAbs_spec :
    ∀ (l : List Int) (a : Int), 0 ≤ a →
      (l.foldl (fun m v => max m |v|) a = a ∨
        ∃ v ∈ l, l.foldl (fun m v => max m |v|) a = |v|) ∧
      a ≤ l.foldl (fun m v => max m |v|) a ∧
      ∀ v ∈ l, |v| ≤ l.foldl (fun m v => max m |v|) a := by
  intro l
  induction l with
  | nil => intro a _; exact ⟨Or.inl rfl, le_refl _, by simp⟩
  | cons w ws ih =>
    intro a ha
    simp only [List.foldl_cons]
    obtain ⟨hmem, hle, hall⟩ := ih (max a |w|) (le_trans ha (le_max_left _ _))
    refine ⟨?_, le_trans (le_max_left a _) hle, ?_⟩
    · rcases hmem with h | h
      · rw [h]
        rcases max_choice a |w| with h' | h'
        · exact Or.inl h'
        · exact Or.inr ⟨w, List.mem_cons_self w ws, h'⟩
      · obtain ⟨v, hv, hv'⟩ := h
        exact Or.inr ⟨v, List.mem_cons_of_mem _ hv, hv'⟩
    · intro v hv
      rcases List.mem_cons.mp hv with rfl | hv
      · exact le_trans (le_max_right a |v|) hle
      · exact hall v hv

theorem maxAbsVal_le (l : List Int) : ∀ v ∈ l, |v| ≤ maxAbsVal l :=
  (foldl_maxAbs_spec l 0 (le_refl 0)).2.2

theorem maxAbsVal_nonneg (l : List Int) : 0 ≤ maxAbsVal l :=
  (foldl_maxAbs_spec l 0 (le_refl 0)).2.1

theorem maxAbsVal_attained (l : List Int) :
    maxAbsVal l = 0 ∨ ∃ v ∈ l, maxAbsVal l = |v| :=
  (foldl_maxAbs_spec l 0 (le_refl 0)).1

theorem maxAbsVal_eq_zero_iff (l : List Int) :
    maxAbsVal l = 0 ↔ ∀ v ∈ l, v = 0 := by
  constructor
  · intro h v hv
    have h1 := maxAbsVal_le l v hv
    rw [h] at h1
    exact abs_eq_zero.mp (le_antisymm h1 (abs_nonneg v))
  · intro h
    rcases maxAbsVal_attained l with h' | ⟨v, hv, hv'⟩
    · exact h'
    · rw [hv', h v hv, abs_zero]

/-! ### Characterization of the three selection rules -/

theorem worstCollateral_cons (c : Int) (cs : List Int) :
    worstCollateral (c :: cs) =
      some (minByKeyFold (fun q => q.2) ((0 : Nat), c) (List.enumFrom 1 cs)) := by
  rfl

theorem enum_cons_eq (c : α) (cs : List α) :
    (c :: cs).enum = ((0 : Nat), c) :: List.enumFrom 1 cs := rfl

theorem worstCollateral_spec (c : Int) (cs : List Int) :
    ∃ i v, worstCollateral (c :: cs) = some (i, v) ∧ (i, v) ∈ (c :: cs).enum ∧
      (∀ p ∈ (c :: cs).enum, v ≤ p.2) ∧
      (∀ p ∈ (c :: cs).enum, p.2 = v → i ≤ p.1) := by
  have hrw := worstCollateral_cons c cs
  set r := minByKeyFold (fun q => q.2) ((0 : Nat), c) (List.enumFrom 1 cs) with hr
  refine ⟨r.1, r.2, by rw [hrw], ?_, ?_, ?_⟩
  · rw [enum_cons_eq]
    rcases minByKeyFold_mem (fun q => q.2) ((0 : Nat), c) (List.enumFrom 1 cs) with h | h
    · rw [← hr] at h
      rw [h]
      exact List.mem_cons_self _ _
    · rw [← hr] at h
      exact List.mem_cons_of_mem _ h
  · intro p hp
    rw [enum_cons_eq] at hp
    obtain ⟨h1, h2⟩ := minByKeyFold_le (fun q => q.2) ((0 : Nat), c) (List.enumFrom 1 cs)
    rw [← hr] at h1 h2
    rcases List.mem_cons.mp hp with rfl | hp
    · exact h1
    · exact h2 p hp
  · intro p hp hpv
    rw [enum_cons_eq] at hp
    rcases List.mem_cons.mp hp with rfl | hp
    · have hfirst := minByKeyFold_first (fun q => q.2) ((0 : Nat), c)
        (List.enumFrom 1 cs) (by rw [← hr]; exact le_of_eq hpv)
      rw [← hr] at hfirst
      rw [hfirst]
    · exact minSnd_enumFrom_first cs 1 ((0 : Nat), c) Nat.one_pos p hp (le_of_eq hpv)

theorem maxSnd_cons_eq_maxVal (c : Int) (cs : List Int) :
    (maxByKeyFold (fun q => q.2) ((0 : Nat), c) (List.enumFrom 1 cs)).2 =
      maxVal (c :: cs) := by
  set r := maxByKeyFold (fun q => q.2) ((0 : Nat), c) (List.enumFrom 1 cs) with hr
  have hmem : r ∈ (c :: cs).enum := by
    rw [enum_cons_eq]
    rcases maxByKeyFold_mem (fun q => q.2) ((0 : Nat), c) (List.enumFrom 1 cs) with h | h
    · rw [← hr] at h; rw [h]; exact List.mem_cons_self _ _
    · rw [← hr] at h; exact List.mem_cons_of_mem _ h
  have hsnd : r.2 ∈ c :: cs := snd_mem_of_mem_enumFrom (c :: cs) 0 r hmem
  have hub : r.2 ≤ maxVal (c :: cs) := le_maxVal c cs r.2 hsnd
  have hlb : maxVal (c :: cs) ≤ r.2 := by
    obtain ⟨i, hi⟩ := exists_mem_enumFrom_of_mem (c :: cs) 0 (maxVal (c :: cs))
      (maxVal_mem c cs)
    obtain ⟨h1, h2⟩ := maxByKeyFold_ge (fun q => q.2) ((0 : Nat), c) (List.enumFrom 1 cs)
    rw [← hr] at h1 h2
    rcases List.mem_cons.mp hi with heq | hi
    · have : maxVal (c :: cs) = c := congrArg Prod.snd heq
      rw [this]; exact h1
    · exact h2 _ hi
  exact le_antisymm hub hlb

theorem bestQuote_spec (c : Int) (cs : List Int) :
    (maxVal (c :: cs) = 0 → bestQuote (c :: cs) = some (0, 0)) ∧
    (maxVal (c :: cs) ≠ 0 →
      ∃ i, bestQuote (c :: cs) = some (i, maxVal (c :: cs)) ∧
        (i, maxVal (c :: cs)) ∈ (c :: cs).enum) := by
  set r := maxByKeyFold (fun q => q.2) ((0 : Nat), c) (List.enumFrom 1 cs) with hr
  have hrw : bestQuote (c :: cs) = if r.2 = 0 then some (0, 0) else some r := by
    rfl
  have hval := maxSnd_cons_eq_maxVal c cs
  rw [← hr] at hval
  constructor
  · intro h0
    rw [hrw, if_pos (hval.trans h0)]
  · intro h0
    have hne : r.2 ≠ 0 := fun h => h0 (hval.symm.trans h)
    refine ⟨r.1, ?_, ?_⟩
    · rw [hrw, if_neg hne, ← hval]
    · rw [← hval]
      rw [enum_cons_eq]
      rcases maxByKeyFold_mem (fun q => q.2) ((0 : Nat), c) (List.enumFrom 1 cs) with h | h
      · rw [← hr] at h; rw [show (r.1, r.2) = r from rfl, h]; exact List.mem_cons_self _ _
      · rw [← hr] at h; rw [show (r.1, r.2) = r from rfl]; exact List.mem_cons_of_mem _ h

theorem largestPosition_spec (positions : List Int) :
    ((∀ v ∈ positions, v = 0) → largestPosition positions = none) ∧
    (∀ i v, largestPosition positions = some (i, v) →
      (i, v) ∈ positions.enum ∧ v ≠ 0 ∧ |v| = maxAbsVal positions) ∧
    ((¬ ∀ v ∈ positions, v = 0) → ∃ i v, largestPosition positions = some (i, v)) := by
  match positions with
  | [] =>
    refine ⟨fun _ => rfl, ?_, ?_⟩
    · intro i v h
      simp [largestPosition, maxByKey, List.enum] at h
    · intro h
      exact absurd (by intro v hv; simp at hv) h
  | c :: cs =>
    set r := maxByKeyFold (fun q => |q.2|) ((0 : Nat), c) (List.enumFrom 1 cs) with hr
    have hrw : largestPosition (c :: cs) = if r.2 = 0 then none else some r := by
      rfl
    have hmem : r ∈ (c :: cs).enum := by
      rw [enum_cons_eq]
      rcases maxByKeyFold_mem (fun q => |q.2|) ((0 : Nat), c) (List.enumFrom 1 cs) with h | h
      · rw [← hr] at h; rw [h]; exact List.mem_cons_self _ _
      · rw [← hr] at h; exact List.mem_cons_of_mem _ h
    have hub : ∀ p ∈ (c :: cs).enum, |p.2| ≤ |r.2| := by
      intro p hp
      rw [enum_cons_eq] at hp
      obtain ⟨h1, h2⟩ := maxByKeyFold_ge (fun q => |q.2|) ((0 : Nat), c) (List.enumFrom 1 cs)
      rw [← hr] at h1 h2
      rcases List.mem_cons.mp hp with rfl | hp
      · exact h1
      · exact h2 p hp
    refine ⟨?_, ?_, ?_⟩
    · intro hz
      have : r.2 = 0 := hz r.2 (snd_mem_of_mem_enumFrom (c :: cs) 0 r hmem)
      rw [hrw, if_pos this]
    · intro i v h
      rw [hrw] at h
      by_cases h0 : r.2 = 0
      · rw [if_pos h0] at h; exact absurd h (by simp)
      · rw [if_neg h0] at h
        have hiv : r = (i, v) := by injection h
        have hvr : v = r.2 := (congrArg Prod.snd hiv).symm
        have hv0 : v ≠ 0 := by rw [hvr]; exact h0
        refine ⟨hiv ▸ hmem, hv0, ?_⟩
        have hle : |v| ≤ maxAbsVal (c :: cs) :=
          maxAbsVal_le (c :: cs) v
            (by rw [hvr]; exact snd_mem_of_mem_enumFrom (c :: cs) 0 r hmem)
        have hge : maxAbsVal (c :: cs) ≤ |v| := by
          rcases maxAbsVal_attained (c :: cs) with h' | ⟨w, hw, hw'⟩
          · rw [h']; exact abs_nonneg v
          · obtain ⟨j, hj⟩ := exists_mem_enumFrom_of_mem (c :: cs) 0 w hw
            have := hub (j, w) hj
            rw [hw', hvr]
            exact this
        exact le_antisymm hle hge
    · intro hnz
      push_neg at hnz
      obtain ⟨w, hw, hw0⟩ := hnz
      obtain ⟨j, hj⟩ := exists_mem_enumFrom_of_mem (c :: cs) 0 w hw
      have hwr := hub (j, w) hj
      have hr0 : r.2 ≠ 0 := by
        intro h0
        rw [h0, abs_zero] at hwr
        exact hw0 (abs_nonpos_iff.mp hwr)
      exact ⟨r.1, r.2, by rw [hrw, if_neg hr0]⟩

/-- C4: for every collateral vector the worst collateral is the argmin by
value with ties broken toward the lowest index; the best quote candidate is
the argmax by value except that a maximum of exactly zero forces the
candidate to index 0 with value zero; for every position vector the largest
position is the argmax by absolute value, and an all-zero position vector
yields no position rather than index 0. -/
theorem claim_C4_selection_rules (colls positions : List Int) (hc : colls ≠ []) :
    (∃ i v, worstCollateral colls = some (i, v) ∧ (i, v) ∈ colls.enum ∧
      (∀ p ∈ colls.enum, v ≤ p.2) ∧ (∀ p ∈ colls.enum, p.2 = v → i ≤ p.1)) ∧
    (maxVal colls = 0 → bestQuote colls = some (0, 0)) ∧
    (maxVal colls ≠ 0 →
      ∃ i, bestQuote colls = some (i, maxVal colls) ∧ (i, maxVal colls) ∈ colls.enum) ∧
    ((∀ v ∈ positions, v = 0) → largestPosition positions = none) ∧
    (∀ i v, largestPosition positions = some (i, v) →
      (i, v) ∈ positions.enum ∧ v ≠ 0 ∧ |v| = maxAbsVal positions) ∧
    ((¬ ∀ v ∈ positions, v = 0) → ∃ i v, largestPosition positions = some (i, v)) := by
  obtain ⟨c, cs, rfl⟩ := List.exists_cons_of_ne_nil hc
  obtain ⟨hq1, hq2⟩ := bestQuote_spec c cs
  obtain ⟨hp1, hp2, hp3⟩ := largestPosition_spec positions
  exact ⟨worstCollateral_spec c cs, hq1, hq2, hp1, hp2, hp3⟩

/-- Witness for C4 at the concrete vectors `[7, 3, 3]` and `[0, 0]`. -/
theorem claim_C4_selection_rules_witness :
    (([7, 3, 3] : List Int) ≠ []) ∧
    (∃ i v, worstCollateral [7, 3, 3] = some (i, v) ∧
      (i, v) ∈ ([7, 3, 3] : List Int).enum ∧
      (∀ p ∈ ([7, 3, 3] : List Int).enum, v ≤ p.2) ∧
      (∀ p ∈ ([7, 3, 3] : List Int).enum, p.2 = v → i ≤ p.1)) ∧
    ((∀ v ∈ ([0, 0] : List Int), v = 0) → largestPosition [0, 0] = none) :=
  ⟨by decide,
    (claim_C4_selection_rules [7, 3, 3] [0, 0] (by decide)).1,
    (claim_C4_selection_rules [7, 3, 3] [0, 0] (by decide)).2.2.2.1⟩

/-! ### Unfolding of the liquidate decision, claims C1 and C10 -/

theorem worstCollateral_nil_none : worstCollateral [] = none := rfl

theorem bestQuote_isSome (c : Int) (cs : List Int) : ∃ q, bestQuote (c :: cs) = some q := by
  by_cases h0 : (maxByKeyFold (fun q => q.2) ((0 : Nat), c) (List.enumFrom 1 cs)).2 = 0
  · exact ⟨((0 : Nat), (0 : Int)), by simp [bestQuote, enum_cons_eq, maxByKey, h0]⟩
  · exact ⟨maxByKeyFold (fun q => q.2) ((0 : Nat), c) (List.enumFrom 1 cs),
      by simp [bestQuote, enum_cons_eq, maxByKey, h0]⟩

theorem liquidate_eq (colls posSizes marks orderAggs : List Int)
    (mlen : Nat) (dust : Int) (ci : Nat) (mc : Int) (q pm : Nat × Int)
    (h1 : worstCollateral colls = some (ci, mc))
    (h2 : bestQuote colls = some q)
    (h3 : maxByKey (fun p => |p.2|) (positionNotionals posSizes marks).enum = some pm) :
    liquidate colls posSizes marks orderAggs mlen dust =
      (if mlen ≤ (if pm.2 = 0 then 0 else pm.1) then .indexPanic
       else if (if pm.2 = 0 then false else true) &&
           (decide (-mc ≤ |(if pm.2 = 0 then 0 else pm.2)|) || spotBankrupt dust colls) then
         .done (.perpLiquidationBranch (if pm.2 = 0 then 0 else pm.1)
           (decide (0 < (if pm.2 = 0 then 0 else pm.2))))
       else if spotBankrupt dust colls && !(if pm.2 = 0 then false else true) then
         match largestOpenOrder orderAggs with
         | some _ => .done .cancelBranch
         | none => .done .settleBankruptcyBranch
       else if mc < 0 then .done (.spotLiquidationBranch ci q.1)
       else match largestOpenOrder orderAggs with
         | some _ => .done .cancelBranch
         | none => .done .noOp) := by
  unfold liquidate
  simp only [h1, h2, h3]
  by_cases h0 : pm.2 = 0
  · simp only [h0]
    rfl
  · simp only [if_neg h0]
    rfl



theorem liquidate_eq_zero (colls posSizes marks orderAggs : List Int)
    (mlen : Nat) (dust : Int) (ci : Nat) (mc : Int) (q pm : Nat × Int)
    (h1 : worstCollateral colls = some (ci, mc))
    (h2 : bestQuote colls = some q)
    (h3 : maxByKey (fun p => |p.2|) (positionNotionals posSizes marks).enum = some pm)
    (h0 : pm.2 = 0) :
    liquidate colls posSizes marks orderAggs mlen dust =
      (if mlen = 0 then .indexPanic
       else if spotBankrupt dust colls then
         match largestOpenOrder orderAggs with
         | some _ => .done .cancelBranch
         | none => .done .settleBankruptcyBranch
       else if mc < 0 then .done (.spotLiquidationBranch ci q.1)
       else match largestOpenOrder orderAggs with
         | some _ => .done .cancelBranch
         | none => .done .noOp) := by
  rw [liquidate_eq colls posSizes marks orderAggs mlen dust ci mc q pm h1 h2 h3]
  simp only [h0, eq_self_iff_true, if_true, Nat.le_zero, Bool.false_and,
    Bool.false_eq_true, if_false, Bool.not_false, Bool.and_true]

theorem liquidate_eq_pos (colls posSizes marks orderAggs : List Int)
    (mlen : Nat) (dust : Int) (ci : Nat) (mc : Int) (q pm : Nat × Int)
    (h1 : worstCollateral colls = some (ci, mc))
    (h2 : bestQuote colls = some q)
    (h3 : maxByKey (fun p => |p.2|) (positionNotionals posSizes marks).enum = some pm)
    (h0 : pm.2 ≠ 0) :
    liquidate colls posSizes marks orderAggs mlen dust =
      (if mlen ≤ pm.1 then .indexPanic
       else if decide (-mc ≤ |pm.2|) || spotBankrupt dust colls then
         .done (.perpLiquidationBranch pm.1 (decide (0 < pm.2)))
       else if mc < 0 then .done (.spotLiquidationBranch ci q.1)
       else match largestOpenOrder orderAggs with
         | some _ => .done .cancelBranch
         | none => .done .noOp) := by
  rw [liquidate_eq colls posSizes marks orderAggs mlen dust ci mc q pm h1 h2 h3]
  simp only [if_neg h0, Bool.true_and, Bool.not_true, Bool.and_false,
    Bool.false_eq_true, if_false]

/-- C1 (amended): whenever a perp position exists, the engine selects the
Perp Liquidation branch if and only if
`-worstCollateralValue <= |positionNotional|` or the account is
spot-bankrupt (the code compares the negated worst collateral, not its
absolute value); and for a position with notional -40, worst collateral
-100 and not spot-bankrupt, the decision falls through to the spot-deficit
branch rather than Perp Liquidation. -/
theorem claim_C1_perp_branch_condition (colls posSizes marks orderAggs : List Int)
    (mlen : Nat) (dust : Int) (ci : Nat) (mc : Int) (pm : Nat × Int)
    (hworst : worstCollateral colls = some (ci, mc))
    (hpm : maxByKey (fun p => |p.2|) (positionNotionals posSizes marks).enum = some pm)
    (hlen : (if pm.2 = 0 then 0 else pm.1) < mlen) :
    ((∃ i l, liquidate colls posSizes marks orderAggs mlen dust =
        .done (.perpLiquidationBranch i l)) ↔
      (pm.2 ≠ 0 ∧ (-mc ≤ |pm.2| ∨ spotBankrupt dust colls = true))) ∧
    liquidate [-100, 200] [-40] [1] [] 1 10 = .done (.spotLiquidationBranch 0 1) := by
  constructor
  · have hnn : colls ≠ [] := by
      intro h
      rw [h, worstCollateral_nil_none] at hworst
      exact Option.noConfusion hworst
    obtain ⟨c, cs, hcc⟩ := List.exists_cons_of_ne_nil hnn
    obtain ⟨q, hq⟩ := bestQuote_isSome c cs
    rw [← hcc] at hq
    by_cases h0 : pm.2 = 0
    · rw [if_pos h0] at hlen
      rw [liquidate_eq_zero colls posSizes marks orderAggs mlen dust ci mc q pm
        hworst hq hpm h0]
      apply iff_of_false
      · rintro ⟨i, l, h⟩
        rw [if_neg (Nat.pos_iff_ne_zero.mp hlen)] at h
        by_cases hb : spotBankrupt dust colls = true
        · rw [if_pos hb] at h
          rcases hlo : largestOpenOrder orderAggs with _ | oo <;> rw [hlo] at h
          · exact LiquidateResult.noConfusion h fun hd => Decision.noConfusion hd
          · exact LiquidateResult.noConfusion h fun hd => Decision.noConfusion hd
        · rw [if_neg hb] at h
          by_cases hmc : mc < 0
          · rw [if_pos hmc] at h
            exact LiquidateResult.noConfusion h fun hd => Decision.noConfusion hd
          · rw [if_neg hmc] at h
            rcases hlo : largestOpenOrder orderAggs with _ | oo <;> rw [hlo] at h
            · exact LiquidateResult.noConfusion h fun hd => Decision.noConfusion hd
            · exact LiquidateResult.noConfusion h fun hd => Decision.noConfusion hd
      · rintro ⟨hne, _⟩
        exact hne h0
    · rw [if_neg h0] at hlen
      rw [liquidate_eq_pos colls posSizes marks orderAggs mlen dust ci mc q pm
        hworst hq hpm h0]
      rw [if_neg (Nat.not_le.mpr hlen)]
      by_cases hcond : (-mc ≤ |pm.2| ∨ spotBankrupt dust colls = true)
      · apply iff_of_true
        · refine ⟨pm.1, decide (0 < pm.2), ?_⟩
          have hb : (decide (-mc ≤ |pm.2|) || spotBankrupt dust colls) = true := by
            rcases hcond with h | h
            · simp [h]
            · simp [h]
          rw [if_pos hb]
        · exact ⟨h0, hcond⟩
      · apply iff_of_false
        · rintro ⟨i, l, h⟩
          have hb : (decide (-mc ≤ |pm.2|) || spotBankrupt dust colls) = false := by
            push_neg at hcond
            simp [hcond.1, hcond.2]
          rw [if_neg (by rw [hb]; exact Bool.false_ne_true)] at h
          by_cases hmc : mc < 0
          · rw [if_pos hmc] at h
            exact LiquidateResult.noConfusion h fun hd => Decision.noConfusion hd
          · rw [if_neg hmc] at h
            rcases hlo : largestOpenOrder orderAggs with _ | oo <;> rw [hlo] at h
            · exact LiquidateResult.noConfusion h fun hd => Decision.noConfusion hd
            · exact LiquidateResult.noConfusion h fun hd => Decision.noConfusion hd
        · rintro ⟨_, hc2⟩
          exact hcond hc2
  · decide

/-- C10: when the account has no perp positions, `position_index` is forced
to 0 and `market_infos[0]` is still read before branch selection, so
`liquidate` panics with an out-of-bounds index on an empty `market_infos`
vector, and only on an empty one. -/
theorem claim_C10_empty_market_infos (colls posSizes marks orderAggs : List Int) (dust : Int)
    (hc : colls ≠ []) (hpn : positionNotionals posSizes marks ≠ [])
    (hzero : ∀ v ∈ positionNotionals posSizes marks, v = 0) :
    liquidate colls posSizes marks orderAggs 0 dust = .indexPanic ∧
    ∀ mlen, 0 < mlen → liquidate colls posSizes marks orderAggs mlen dust ≠ .indexPanic := by
  obtain ⟨c, cs, hcc⟩ := List.exists_cons_of_ne_nil hc
  have hworst : worstCollateral colls =
      some ((minByKeyFold (fun p => p.2) ((0 : Nat), c) (List.enumFrom 1 cs)).1,
        (minByKeyFold (fun p => p.2) ((0 : Nat), c) (List.enumFrom 1 cs)).2) := by
    rw [hcc, worstCollateral_cons]
  obtain ⟨q, hq⟩ := bestQuote_isSome c cs
  rw [← hcc] at hq
  obtain ⟨d, ds, hdd⟩ := List.exists_cons_of_ne_nil hpn
  have hpm : maxByKey (fun p => |p.2|) (positionNotionals posSizes marks).enum =
      some (maxByKeyFold (fun p => |p.2|) ((0 : Nat), d) (List.enumFrom 1 ds)) := by
    rw [hdd]
    rfl
  have hpm2 : (maxByKeyFold (fun p => |p.2|) ((0 : Nat), d) (List.enumFrom 1 ds)).2 = 0 := by
    apply hzero
    apply snd_mem_of_mem_enumFrom (positionNotionals posSizes marks) 0
    rw [hdd, List.enumFrom_cons]
    rcases maxByKeyFold_mem (fun p => |p.2|) ((0 : Nat), d) (List.enumFrom 1 ds) with h | h
    · rw [h]
      exact List.mem_cons_self _ _
    · exact List.mem_cons_of_mem _ h
  constructor
  · rw [liquidate_eq_zero colls posSizes marks orderAggs 0 dust _ _ q _ hworst hq hpm hpm2]
    rw [if_pos rfl]
  · intro mlen hmlen
    rw [liquidate_eq_zero colls posSizes marks orderAggs mlen dust _ _ q _ hworst hq hpm hpm2]
    rw [if_neg (Nat.pos_iff_ne_zero.mp hmlen)]
    by_cases hb : spotBankrupt dust colls = true
    · rw [if_pos hb]
      rcases hlo : largestOpenOrder orderAggs with _ | oo <;>
        exact fun h => LiquidateResult.noConfusion h
    · rw [if_neg hb]
      by_cases hmc : (minByKeyFold (fun p => p.2) ((0 : Nat), c) (List.enumFrom 1 cs)).2 < 0
      · rw [if_pos hmc]
        exact fun h => LiquidateResult.noConfusion h
      · rw [if_neg hmc]
        rcases hlo : largestOpenOrder orderAggs with _ | oo <;>
          exact fun h => LiquidateResult.noConfusion h

/-- C1 counterexample: with collateral values `[100, 200]`, a single
position of notional `40` (mark price 1) and dust threshold 10, the code
selects the Perp Liquidation branch even though
`|worstCollateralValue| = 100 > 40 = |positionNotional|` and the account is
not spot-bankrupt, refuting the claimed if-and-only-if condition
`|worstCollateralValue| <= |positionNotional| or spot-bankrupt`. -/
theorem claim_C1_counterexample :
    liquidate [100, 200] [40] [1] [] 1 10 = .done (.perpLiquidationBranch 0 true) ∧
    worstCollateral [100, 200] = some (0, 100) ∧
    largestPosition (positionNotionals [40] [1]) = some (0, 40) ∧
    ¬(|(100 : Int)| ≤ |(40 : Int)|) ∧
    spotBankrupt 10 [100, 200] = false := by
  refine ⟨by decide, by decide, by decide, by decide, by decide⟩

/-- Witness for C1 at collateral `[100, 200]`, position notional `40`. -/
theorem claim_C1_perp_branch_condition_witness :
    worstCollateral [100, 200] = some (0, 100) ∧
    ∃ i l, liquidate [100, 200] [40] [1] [] 1 10 =
      .done (.perpLiquidationBranch i l) :=
  ⟨by decide,
    (claim_C1_perp_branch_condition [100, 200] [40] [1] [] 1 10 0 100 (0, 40)
      (by decide) (by decide) (by decide)).1.mpr ⟨by decide, Or.inl (by decide)⟩⟩

/-- Witness for C10 at collateral `[5, 8, 2]` and an all-zero position
vector with an empty `market_infos` vector. -/
theorem claim_C10_empty_market_infos_witness :
    (([5, 8, 2] : List Int) ≠ []) ∧ (positionNotionals [0] [1] ≠ []) ∧
    liquidate [5, 8, 2] [0] [1] [] 0 10 = .indexPanic :=
  ⟨by decide, by decide,
    (claim_C10_empty_market_infos [5, 8, 2] [0] [1] [] 10 (by decide) (by decide)
      (by decide)).1⟩

/-! ### The halving retry loops and initial sizing, claims C2, C7, C8 -/

/-- Submission environment in which every attempt is rejected as
over-exposed. -/
def allOverExposedEnv : Nat → Except ErrorCode Unit :=
  fun _ => .error .LiquidationOverExposure

theorem liquidateSpotLoop_eq_perpLoop (env : Nat → Except ErrorCode Unit) :
    ∀ (fuel : Nat) (amount : Int) (k : Nat),
      liquidateSpotLoop env amount k fuel = liquidatePerpLoop env amount k fuel := by
  intro fuel
  induction fuel with
  | zero => intro a k; rfl
  | succ f ih =>
    intro a k
    cases henv : env k with
    | ok u => simp only [liquidateSpotLoop, liquidatePerpLoop, henv]
    | error e =>
      cases e <;> simp only [liquidateSpotLoop, liquidatePerpLoop, henv, ih]

theorem tdiv_tdiv_of_nonneg (a : Int) (ha : 0 ≤ a) (b c : Int)
    (hb : 0 ≤ b) (hc : 0 ≤ c) : (a.tdiv b).tdiv c = a.tdiv (b * c) := by
  lift a to Nat using ha
  lift b to Nat using hb
  lift c to Nat using hc
  rw [← Int.ofNat_mul, ← Int.ofNat_tdiv, ← Int.ofNat_tdiv, ← Int.ofNat_tdiv,
    Nat.div_div_eq_div_mul]

theorem perpLoop_allOverExposed (env : Nat → Except ErrorCode Unit) :
    ∀ (fuel k : Nat) (lots : Int), 0 ≤ lots →
      (∀ j, j < fuel → env (k + j) = .error .LiquidationOverExposure) →
      (liquidatePerpLoop env lots k fuel).1 =
        (List.range fuel).map (fun t => lots.tdiv (2 ^ t)) ∧
      (liquidatePerpLoop env lots k fuel).2 = .error .LiquidationFailure := by
  intro fuel
  induction fuel with
  | zero => intro k lots _ _; exact ⟨rfl, rfl⟩
  | succ f ih =>
    intro k lots h0 henv
    have hk : env k = .error .LiquidationOverExposure := by
      have := henv 0 (Nat.succ_pos f)
      rwa [Nat.add_zero] at this
    have hshift : ∀ j, j < f → env (k + 1 + j) = .error .LiquidationOverExposure := by
      intro j hj
      have := henv (j + 1) (by omega)
      rwa [show k + (j + 1) = k + 1 + j by omega] at this
    obtain ⟨ih1, ih2⟩ := ih (k + 1) (lots.tdiv 2)
      (Int.tdiv_nonneg h0 (by norm_num)) hshift
    constructor
    · simp only [liquidatePerpLoop, hk]
      rw [ih1, List.range_succ_eq_map, List.map_cons, List.map_map]
      rw [pow_zero, Int.tdiv_one]
      congr 1
      apply List.map_congr_left
      intro t _
      show (lots.tdiv 2).tdiv (2 ^ t) = lots.tdiv (2 ^ (t + 1))
      rw [tdiv_tdiv_of_nonneg lots h0 2 (2 ^ t) (by norm_num) (by positivity)]
      congr 1
      rw [pow_succ]
      ring
    · simp only [liquidatePerpLoop, hk]
      exact ih2

theorem perpLoop_result_cases (env : Nat → Except ErrorCode Unit) :
    ∀ (fuel : Nat) (lots : Int) (k : Nat),
      (liquidatePerpLoop env lots k fuel).2 = .ok () ∨
      (liquidatePerpLoop env lots k fuel).2 = .error .LiquidationFailure := by
  intro fuel
  induction fuel with
  | zero => intro lots k; exact Or.inr rfl
  | succ f ih =>
    intro lots k
    cases henv : env k with
    | ok u =>
      left
      simp only [liquidatePerpLoop, henv]
    | error e =>
      cases e
      case LiquidationOverExposure =>
        simp only [liquidatePerpLoop, henv]
        exact ih (lots.tdiv 2) (k + 1)
      all_goals
        right
        simp only [liquidatePerpLoop, henv]

theorem perpLoop_allOver_result (env : Nat → Except ErrorCode Unit) :
    ∀ (fuel k : Nat) (lots : Int),
      (∀ j, j < fuel → env (k + j) = .error .LiquidationOverExposure) →
      (liquidatePerpLoop env lots k fuel).2 = .error .LiquidationFailure := by
  intro fuel
  induction fuel with
  | zero => intro k lots _; rfl
  | succ f ih =>
    intro k lots henv
    have hk : env k = .error .LiquidationOverExposure := by
      have := henv 0 (Nat.succ_pos f)
      rwa [Nat.add_zero] at this
    simp only [liquidatePerpLoop, hk]
    apply ih (k + 1) (lots.tdiv 2)
    intro j hj
    have := henv (j + 1) (by omega)
    rwa [show k + (j + 1) = k + 1 + j by omega] at this

theorem perpLoop_fatal (env : Nat → Except ErrorCode Unit) :
    ∀ (j fuel k : Nat) (lots : Int) (e : ErrorCode), j < fuel →
      (∀ t, t < j → env (k + t) = .error .LiquidationOverExposure) →
      env (k + j) = .error e → e ≠ .LiquidationOverExposure →
      (liquidatePerpLoop env lots k fuel).2 = .error .LiquidationFailure ∧
      (liquidatePerpLoop env lots k fuel).1.length = j + 1 := by
  intro j
  induction j with
  | zero =>
    intro fuel k lots e hj _ he hne
    obtain ⟨f, rfl⟩ : ∃ f, fuel = f + 1 := ⟨fuel - 1, by omega⟩
    rw [Nat.add_zero] at he
    cases e
    case LiquidationOverExposure => exact absurd rfl hne
    all_goals
      exact ⟨by simp only [liquidatePerpLoop, he], by simp only [liquidatePerpLoop, he, List.length_cons, List.length_nil]⟩
  | succ j ih =>
    intro fuel k lots e hj hprev he hne
    obtain ⟨f, rfl⟩ : ∃ f, fuel = f + 1 := ⟨fuel - 1, by omega⟩
    have hk : env k = .error .LiquidationOverExposure := by
      have := hprev 0 (Nat.succ_pos j)
      rwa [Nat.add_zero] at this
    have hshift : ∀ t, t < j → env (k + 1 + t) = .error .LiquidationOverExposure := by
      intro t ht
      have := hprev (t + 1) (by omega)
      rwa [show k + (t + 1) = k + 1 + t by omega] at this
    have he2 : env (k + 1 + j) = .error e := by
      rwa [show k + 1 + j = k + (j + 1) by omega]
    obtain ⟨r1, r2⟩ := ih f (k + 1) (lots.tdiv 2) e (by omega) hshift he2 hne
    refine ⟨?_, ?_⟩
    · simp only [liquidatePerpLoop, hk]
      exact r1
    · simp only [liquidatePerpLoop, hk, List.length_cons]
      rw [r2]

/-- C2 (amended): under repeated over-exposure rejections each liquidator
(perp and spot) halves the transfer size by truncating integer division and
resubmits the same instruction set; the loop performs at most 5 submissions,
the k-th submitted size being floor(initialSize / 2^k) for k = 0..4 (for an
initial size of 320: 320, 160, 80, 40, 20), and the 5th over-exposure
rejection is terminal - a 5th halving is computed but never submitted. -/
theorem claim_C2_halving (lots : Int) (h0 : 0 ≤ lots) :
    (liquidatePerpLoop allOverExposedEnv lots 0 5).1 =
      (List.range 5).map (fun k => lots.tdiv (2 ^ k)) ∧
    (liquidatePerpLoop allOverExposedEnv lots 0 5).2 = .error .LiquidationFailure ∧
    (liquidateSpotLoop allOverExposedEnv lots 0 5).1 =
      (List.range 5).map (fun k => lots.tdiv (2 ^ k)) ∧
    (liquidateSpotLoop allOverExposedEnv lots 0 5).2 = .error .LiquidationFailure := by
  obtain ⟨h1, h2⟩ := perpLoop_allOverExposed allOverExposedEnv 5 0 lots h0
    (fun j _ => rfl)
  refine ⟨h1, h2, ?_, ?_⟩
  · rw [liquidateSpotLoop_eq_perpLoop]
    exact h1
  · rw [liquidateSpotLoop_eq_perpLoop]
    exact h2

/-- C2 counterexample: with initial size 320 and every submission rejected
as over-exposed, both halving loops submit exactly the sizes
`[320, 160, 80, 40, 20]`, not the claimed `[320, 160, 80, 40, 20, 10]`;
there is no 6th submission and the 5th rejection is already terminal. -/
theorem claim_C2_counterexample :
    (liquidatePerpLoop allOverExposedEnv 320 0 5).1 = [320, 160, 80, 40, 20] ∧
    (liquidateSpotLoop allOverExposedEnv 320 0 5).1 = [320, 160, 80, 40, 20] ∧
    ([320, 160, 80, 40, 20] : List Int) ≠ [320, 160, 80, 40, 20, 10] ∧
    (liquidatePerpLoop allOverExposedEnv 320 0 5).2 = .error .LiquidationFailure := by
  refine ⟨by decide, by decide, by decide, by decide⟩

/-- Witness for C2 (amended) at initial size 320. -/
theorem claim_C2_halving_witness :
    (0 : Int) ≤ 320 ∧
    (liquidatePerpLoop allOverExposedEnv 320 0 5).1 =
      (List.range 5).map (fun k => (320 : Int).tdiv (2 ^ k)) :=
  ⟨by decide, (claim_C2_halving 320 (by decide)).1⟩

/-- C7: in the perp and spot halving-retry loops an over-exposure rejection
never escapes the loop (the outcome is always success or
`LiquidationFailure`); exhausting the 5 iterations on over-exposure returns
`LiquidationFailure`; and a rejection of any other kind immediately
terminates the attempt with `LiquidationFailure` after exactly the
submissions made so far. -/
theorem claim_C7_retry_errors (lots : Int) (env : Nat → Except ErrorCode Unit) :
    ((liquidatePerpLoop env lots 0 5).2 = .ok () ∨
      (liquidatePerpLoop env lots 0 5).2 = .error .LiquidationFailure) ∧
    ((∀ j, j < 5 → env j = .error .LiquidationOverExposure) →
      (liquidatePerpLoop env lots 0 5).2 = .error .LiquidationFailure) ∧
    (∀ j e, j < 5 → (∀ t, t < j → env t = .error .LiquidationOverExposure) →
      env j = .error e → e ≠ .LiquidationOverExposure →
      (liquidatePerpLoop env lots 0 5).2 = .error .LiquidationFailure ∧
      (liquidatePerpLoop env lots 0 5).1.length = j + 1) ∧
    ((liquidateSpotLoop env lots 0 5).2 = .ok () ∨
      (liquidateSpotLoop env lots 0 5).2 = .error .LiquidationFailure) ∧
    ((∀ j, j < 5 → env j = .error .LiquidationOverExposure) →
      (liquidateSpotLoop env lots 0 5).2 = .error .LiquidationFailure) ∧
    (∀ j e, j < 5 → (∀ t, t < j → env t = .error .LiquidationOverExposure) →
      env j = .error e → e ≠ .LiquidationOverExposure →
      (liquidateSpotLoop env lots 0 5).2 = .error .LiquidationFailure ∧
      (liquidateSpotLoop env lots 0 5).1.length = j + 1) := by
  have hz : ∀ (j : Nat), (0 : Nat) + j = j := fun j => Nat.zero_add j
  refine ⟨perpLoop_result_cases env 5 lots 0, ?_, ?_, ?_, ?_, ?_⟩
  · intro hall
    exact perpLoop_allOver_result env 5 0 lots (fun j hj => by rw [hz]; exact hall j hj)
  · intro j e hj hprev he hne
    exact perpLoop_fatal env j 5 0 lots e hj
      (fun t ht => by rw [hz]; exact hprev t ht) (by rw [hz]; exact he) hne
  · rw [liquidateSpotLoop_eq_perpLoop]
    exact perpLoop_result_cases env 5 lots 0
  · intro hall
    rw [liquidateSpotLoop_eq_perpLoop]
    exact perpLoop_allOver_result env 5 0 lots (fun j hj => by rw [hz]; exact hall j hj)
  · intro j e hj hprev he hne
    rw [liquidateSpotLoop_eq_perpLoop]
    exact perpLoop_fatal env j 5 0 lots e hj
      (fun t ht => by rw [hz]; exact hprev t ht) (by rw [hz]; exact he) hne

/-- Witness for C7: exhausting all 5 iterations on over-exposure. -/
theorem claim_C7_retry_errors_witness :
    (∀ j, j < 5 → allOverExposedEnv j = .error .LiquidationOverExposure) ∧
    (liquidatePerpLoop allOverExposedEnv 7 0 5).2 = .error .LiquidationFailure :=
  ⟨fun _ _ => rfl,
    (claim_C7_retry_errors 7 allOverExposedEnv).2.1 (fun _ _ => rfl)⟩

theorem sizing_core (t m d : Int) (ht : 0 ≤ t) (hm : 0 < m) (hd : 0 < d) :
    (((t * 2 ^ 48).tdiv m).fdiv (2 ^ 48)).tdiv d = (t.fdiv m).fdiv d := by
  lift t to Nat using ht
  lift m to Nat using le_of_lt hm
  lift d to Nat using le_of_lt hd
  have hm2 : 0 < m := by exact_mod_cast hm
  have hd2 : 0 < d := by exact_mod_cast hd
  have hLHS : ((((t : Int) * 2 ^ 48).tdiv m).fdiv (2 ^ 48)).tdiv d
      = ((t * 2 ^ 48 / m / 2 ^ 48 / d : Nat) : Int) := by
    rw [show ((2 : Int) ^ 48) = ((2 ^ 48 : Nat) : Int) by push_cast]
    rw [← Int.ofNat_mul, ← Int.ofNat_tdiv]
    rw [Int.fdiv_eq_ediv _ (Int.natCast_nonneg _), ← Int.ofNat_ediv, ← Int.ofNat_tdiv]
  have hRHS : ((t : Int).fdiv m).fdiv d = ((t / m / d : Nat) : Int) := by
    rw [Int.fdiv_eq_ediv (t : Int) (Int.natCast_nonneg m), ← Int.ofNat_ediv]
    rw [Int.fdiv_eq_ediv _ (Int.natCast_nonneg d), ← Int.ofNat_ediv]
  rw [hLHS, hRHS]
  congr 1
  rw [Nat.div_div_eq_div_mul (t * 2 ^ 48) m (2 ^ 48),
    Nat.mul_div_mul_right t m (by norm_num : 0 < 2 ^ 48)]

/-- C8: for a non-negative caller collateral value and positive prices and
divisors, the initial transfer size equals the spec's floor formula in both
liquidators: `lots = floor(floor(callerTotal / markPrice) / lotSize) * 10`
for the perp liquidator and
`amount = floor(floor(callerTotal / assetOraclePrice) / 10^decimals) * 10`
for the spot liquidator. -/
theorem claim_C8_initial_sizing (total markPrice lotSize spotPrice : Int)
    (decimals : Nat) (ht : 0 ≤ total) (hm : 0 < markPrice) (hl : 0 < lotSize)
    (hs : 0 < spotPrice) :
    perpAssetTransferLots total markPrice lotSize =
      specPerpLots total markPrice lotSize ∧
    spotAssetTransferAmount total spotPrice decimals =
      specSpotAmount total spotPrice decimals := by
  constructor
  · unfold perpAssetTransferLots specPerpLots
    rw [sizing_core total markPrice lotSize ht hm hl]
  · unfold spotAssetTransferAmount specSpotAmount
    rw [sizing_core total spotPrice (10 ^ decimals) ht hs (by positivity)]

/-- Witness for C8 at collateral value 2.0, price 0.5, lot size 3. -/
theorem claim_C8_initial_sizing_witness :
    (0 : Int) ≤ 2 * 2 ^ 48 ∧ (0 : Int) < 2 ^ 47 ∧ (0 : Int) < 3 ∧
    perpAssetTransferLots (2 * 2 ^ 48) (2 ^ 47) 3 =
      specPerpLots (2 * 2 ^ 48) (2 ^ 47) 3 :=
  ⟨by decide, by decide, by decide,
    (claim_C8_initial_sizing (2 * 2 ^ 48) (2 ^ 47) 3 (2 ^ 47) 0
      (by decide) (by decide) (by decide) (by decide)).1⟩

/-! ### Bankruptcy settlement, spot rebalancing, order cancelling and the scan loop: claims C3, C5, C9, C6 -/

theorem settleLoop_no_swap_error (settleEnv swapEnv : Nat → Except ErrorCode Unit)
    (registered : Nat → Bool)
    (hswap : ∀ j, registered j = true → swapEnv j = .ok ()) :
    ∀ (balances : List Int) (i : Nat),
      settleBankruptcyLoop settleEnv swapEnv registered balances i =
        (((List.enumFrom i balances).filter (fun p => decide (p.2 < 0))).map
            (fun p => p.1),
          .ok (((List.enumFrom i balances).filter (fun p => decide (p.2 < 0))).map
            (fun p => settleEnv p.1))) := by
  intro balances
  induction balances with
  | nil => intro i; rfl
  | cons b rest ih =>
    intro i
    rw [List.enumFrom_cons]
    by_cases hb : 0 ≤ b
    · have hfilter : (fun p : Nat × Int => decide (p.2 < 0)) (i, b) = false := by
        simp only [decide_eq_false_iff_not]
        omega
      rw [List.filter_cons_of_neg (by simpa using hfilter)]
      simp only [settleBankruptcyLoop, if_pos hb]
      exact ih (i + 1)
    · have hb2 : b < 0 := lt_of_not_ge hb
      have hfilter : (fun p : Nat × Int => decide (p.2 < 0)) (i, b) = true := by
        simp [hb2]
      rw [List.filter_cons_of_pos (by simpa using hfilter)]
      have hswapStep : (if registered i then swapEnv i else .ok ()) =
          (.ok () : Except ErrorCode Unit) := by
        by_cases hr : registered i
        · rw [if_pos hr]
          exact hswap i hr
        · rw [if_neg hr]
      simp only [settleBankruptcyLoop, if_neg hb, hswapStep, ih (i + 1),
        List.map_cons, Except.map]

theorem scanSettleResults_cases :
    ∀ rs : List (Except ErrorCode Unit),
      scanSettleResults rs = .ok () ∨
      scanSettleResults rs = .error .SettlementFailure := by
  intro rs
  induction rs with
  | nil => exact Or.inl rfl
  | cons r rest ih =>
    cases r with
    | ok u => exact ih
    | error e => exact Or.inr rfl

theorem scanSettleResults_ok_iff :
    ∀ rs : List (Except ErrorCode Unit),
      (scanSettleResults rs = .ok () ↔ ∀ r ∈ rs, r = .ok ()) := by
  intro rs
  induction rs with
  | nil => exact ⟨fun _ r hr => absurd hr (List.not_mem_nil r), fun _ => rfl⟩
  | cons r rest ih =>
    cases r with
    | ok u =>
      constructor
      · intro h s hs
        rcases List.mem_cons.mp hs with rfl | hs
        · rfl
        · exact ih.mp h s hs
      · intro h
        exact ih.mpr (fun s hs => h s (List.mem_cons_of_mem _ hs))
    | error e =>
      constructor
      · intro h
        exact absurd h (by simp [scanSettleResults])
      · intro h
        exact absurd (h (.error e) (List.mem_cons_self _ _)) (by simp)

/-- C3 (amended): provided every attempted rebalancing swap succeeds or is
skipped, bankruptcy settlement iterates the collateral indices in ascending
canonical order, attempting exactly the indices with a negative raw
balance; the call reports `SettlementFailure` if and only if at least one
settlement leg failed; and zero eligible indices is a successful no-op
issuing no instructions.  (A failing swap instead aborts the iteration
immediately and propagates the swap's own error, as the counterexample
shows.) -/
theorem claim_C3_settlement (balances : List Int)
    (settleEnv swapEnv : Nat → Except ErrorCode Unit) (registered : Nat → Bool)
    (hswap : ∀ j, registered j = true → swapEnv j = .ok ()) :
    (settle_bankruptcy balances settleEnv swapEnv registered).1 =
      (balances.enum.filter (fun p => decide (p.2 < 0))).map (fun p => p.1) ∧
    ((settle_bankruptcy balances settleEnv swapEnv registered).2 = .ok () ↔
      ∀ p ∈ balances.enum.filter (fun p => decide (p.2 < 0)),
        settleEnv p.1 = .ok ()) ∧
    ((settle_bankruptcy balances settleEnv swapEnv registered).2 = .ok () ∨
      (settle_bankruptcy balances settleEnv swapEnv registered).2 =
        .error .SettlementFailure) ∧
    ((∀ b ∈ balances, 0 ≤ b) →
      settle_bankruptcy balances settleEnv swapEnv registered = ([], .ok ())) := by
  have hloop := settleLoop_no_swap_error settleEnv swapEnv registered hswap balances 0
  have hsb : settle_bankruptcy balances settleEnv swapEnv registered =
      ((balances.enum.filter (fun p => decide (p.2 < 0))).map (fun p => p.1),
        scanSettleResults ((balances.enum.filter (fun p => decide (p.2 < 0))).map
          (fun p => settleEnv p.1))) := by
    unfold settle_bankruptcy
    rw [hloop]
    rfl
  refine ⟨by rw [hsb], ?_, ?_, ?_⟩
  · rw [hsb]
    rw [scanSettleResults_ok_iff]
    constructor
    · intro h p hp
      exact h (settleEnv p.1) (List.mem_map_of_mem _ hp)
    · intro h r hr
      obtain ⟨p, hp, rfl⟩ := List.mem_map.mp hr
      exact h p hp
  · rw [hsb]
    exact scanSettleResults_cases _
  · intro hpos
    have hfil : balances.enum.filter (fun p => decide (p.2 < 0)) = [] := by
      rw [List.filter_eq_nil_iff]
      intro p hp
      have : 0 ≤ p.2 := hpos p.2 (snd_mem_of_mem_enumFrom balances 0 p hp)
      simp only [decide_eq_true_eq]
      omega
    rw [hsb, hfil]
    rfl

/-- C3 counterexample: with balances `[-1, -1]` (both indices eligible),
every settle leg succeeding, a serum market registered for index 0 and its
rebalancing swap failing, only index 0 is attempted - index 1 is never
visited - and the call returns the swap's error (`CancelFailure`), which is
neither success nor `SettlementFailure`, although no settlement leg
failed. -/
theorem claim_C3_counterexample :
    settle_bankruptcy [-1, -1] (fun _ => .ok ()) (fun _ => .error .CancelFailure)
      (fun i => decide (i = 0)) = ([0], .error .CancelFailure) ∧
    ([0] : List Nat) ≠ [0, 1] ∧
    (Except.error ErrorCode.CancelFailure : Except ErrorCode Unit) ≠
      .error .SettlementFailure ∧
    (Except.error ErrorCode.CancelFailure : Except ErrorCode Unit) ≠ .ok () := by
  refine ⟨by decide, by decide, by decide, by decide⟩

/-- Witness for C3 (amended) at balances `[-1, 2, -1]` with no registered
swap markets. -/
theorem claim_C3_settlement_witness :
    (settle_bankruptcy [-1, 2, -1]
        (fun i => if i = 2 then .error .LiquidationFailure else .ok ())
        (fun _ => .ok ()) (fun _ => false)).1 =
      ((([-1, 2, -1] : List Int).enum.filter (fun p => decide (p.2 < 0))).map
        (fun p => p.1)) :=
  (claim_C3_settlement [-1, 2, -1]
    (fun i => if i = 2 then .error .LiquidationFailure else .ok ())
    (fun _ => .ok ()) (fun _ => false) (fun _ h => Bool.noConfusion h)).1

/-- C5 (amended): after a spot liquidation attempt the quote leg and then
the collateral leg are rebalanced; a leg is only ever invoked when a spot
market and vault signer are registered for it (an absent registration is
logged and skipped without the call returning an error), and when every
invoked swap succeeds, both registered legs are invoked and the rebalancing
returns success.  (A failing swap instead propagates its error immediately
and skips the remaining leg, as the counterexample shows.) -/
theorem claim_C5_rebalance (q c : Nat) (registered : Nat → Bool)
    (swapEnv : Nat → Except ErrorCode Unit) :
    (∀ i, i ∈ (spotRebalance q c registered swapEnv).1 →
      registered i = true ∧ (i = q ∨ i = c)) ∧
    ((∀ i, registered i = true → swapEnv i = .ok ()) →
      ((spotRebalance q c registered swapEnv).2 = .ok () ∧
        ∀ i, (i = q ∨ i = c) → registered i = true →
          i ∈ (spotRebalance q c registered swapEnv).1)) := by
  constructor
  · intro i hi
    unfold spotRebalance at hi
    by_cases hq : registered q = true
    · rw [if_pos hq] at hi
      cases hsq : swapEnv q with
      | error e =>
        rw [hsq] at hi
        simp only [List.mem_singleton] at hi
        subst hi
        exact ⟨hq, Or.inl rfl⟩
      | ok u =>
        rw [hsq] at hi
        by_cases hc : registered c = true
        · rw [if_pos hc] at hi
          cases hsc : swapEnv c with
          | error e =>
            rw [hsc] at hi
            rcases List.mem_cons.mp hi with rfl | hi
            · exact ⟨hq, Or.inl rfl⟩
            · simp only [List.mem_singleton] at hi
              subst hi
              exact ⟨hc, Or.inr rfl⟩
          | ok u2 =>
            rw [hsc] at hi
            rcases List.mem_cons.mp hi with rfl | hi
            · exact ⟨hq, Or.inl rfl⟩
            · simp only [List.mem_singleton] at hi
              subst hi
              exact ⟨hc, Or.inr rfl⟩
        · rw [if_neg hc] at hi
          simp only [List.mem_singleton] at hi
          subst hi
          exact ⟨hq, Or.inl rfl⟩
    · rw [if_neg hq] at hi
      by_cases hc : registered c = true
      · rw [if_pos hc] at hi
        cases hsc : swapEnv c with
        | error e =>
          rw [hsc] at hi
          simp only [List.mem_singleton] at hi
          subst hi
          exact ⟨hc, Or.inr rfl⟩
        | ok u =>
          rw [hsc] at hi
          simp only [List.mem_singleton] at hi
          subst hi
          exact ⟨hc, Or.inr rfl⟩
      · rw [if_neg hc] at hi
        exact absurd hi (List.not_mem_nil i)
  · intro hok
    unfold spotRebalance
    by_cases hq : registered q = true
    · rw [if_pos hq, hok q hq]
      by_cases hc : registered c = true
      · rw [if_pos hc, hok c hc]
        refine ⟨rfl, ?_⟩
        intro i hi _
        rcases hi with rfl | rfl
        · exact List.mem_cons_self _ _
        · exact List.mem_cons_of_mem _ (List.mem_singleton.mpr rfl)
      · rw [if_neg hc]
        refine ⟨rfl, ?_⟩
        intro i hi hri
        rcases hi with rfl | rfl
        · exact List.mem_singleton.mpr rfl
        · exact absurd hri hc
    · rw [if_neg hq]
      by_cases hc : registered c = true
      · rw [if_pos hc, hok c hc]
        refine ⟨rfl, ?_⟩
        intro i hi hri
        rcases hi with rfl | rfl
        · exact absurd hri hq
        · exact List.mem_singleton.mpr rfl
      · rw [if_neg hc]
        refine ⟨rfl, ?_⟩
        intro i hi hri
        rcases hi with rfl | rfl
        · exact absurd hri hq
        · exact absurd hri hc

/-- C5 counterexample: with both legs registered and the quote-leg swap
failing, the collateral leg (index 1) is never invoked although it is
registered, and the call returns the swap's error - the two legs are not
rebalanced independently. -/
theorem claim_C5_counterexample :
    spotRebalance 0 1 (fun _ => true)
      (fun i => if i = 0 then .error .CancelFailure else .ok ()) =
      ([0], .error .CancelFailure) ∧
    ((1 : Nat) ∉ ([0] : List Nat)) ∧
    (fun (_ : Nat) => true) 1 = true := by
  refine ⟨by decide, by decide, rfl⟩

/-- Witness for C5 (amended): only the quote leg registered, swap
succeeding. -/
theorem claim_C5_rebalance_witness :
    (∀ i, (fun j : Nat => decide (j = 0)) i = true →
      (fun _ : Nat => (.ok () : Except ErrorCode Unit)) i = .ok ()) ∧
    (spotRebalance 0 1 (fun j => decide (j = 0)) (fun _ => .ok ())).2 = .ok () :=
  ⟨fun _ _ => rfl,
    ((claim_C5_rebalance 0 1 (fun j => decide (j = 0)) (fun _ => .ok ())).2
      (fun _ _ => rfl)).1⟩

theorem find?_enumFrom_spec (p : Nat × Int → Bool) :
    ∀ (l : List Int) (n : Nat) (x : Nat × Int),
      (List.enumFrom n l).find? p = some x →
      n ≤ x.1 ∧ l[x.1 - n]? = some x.2 ∧ p x = true ∧
        ∀ j w, j < x.1 - n → l[j]? = some w → p (j + n, w) = false := by
  intro l
  induction l with
  | nil => intro n x h; simp [List.enumFrom] at h
  | cons v vs ih =>
    intro n x h
    rw [List.enumFrom_cons] at h
    by_cases hp : p (n, v) = true
    · rw [List.find?_cons_of_pos _ hp] at h
      have hx : (n, v) = x := by injection h
      subst hx
      refine ⟨le_refl n, ?_, hp, ?_⟩
      · rw [Nat.sub_self]
        exact List.getElem?_cons_zero
      · intro j w hj _
        omega
    · rw [List.find?_cons_of_neg _ hp] at h
      obtain ⟨h1, h2, h3, h4⟩ := ih (n + 1) x h
      refine ⟨by omega, ?_, h3, ?_⟩
      · rw [show x.1 - n = (x.1 - (n + 1)) + 1 by omega, List.getElem?_cons_succ]
        exact h2
      · intro j w hj hw
        match j with
        | 0 =>
          have hv : w = v := by
            rw [List.getElem?_cons_zero] at hw
            exact (Option.some.injEq _ _).mp hw.symm
          subst hv
          rw [Nat.zero_add]
          cases hb : p (n, w) with
          | false => rfl
          | true => exact absurd hb hp
        | Nat.succ j2 =>
          rw [List.getElem?_cons_succ] at hw
          have := h4 j2 w (by omega) hw
          rwa [show j2 + (n + 1) = j2 + 1 + n by omega] at this

theorem largestOpenOrder_some_spec (orderAggs : List Int) (idx : Nat)
    (h : largestOpenOrder orderAggs = some idx) :
    ∃ v, orderAggs[idx]? = some v ∧ v ≠ 0 ∧ |v| = maxAbsVal orderAggs ∧
      ∀ j w, j < idx → orderAggs[j]? = some w → |w| < |v| := by
  unfold largestOpenOrder at h
  by_cases hm : maxAbsVal orderAggs = 0
  · rw [if_pos hm] at h
    exact Option.noConfusion h
  · rw [if_neg hm] at h
    obtain ⟨x, hx, hx1⟩ := Option.map_eq_some'.mp h
    obtain ⟨_, h2, h3, h4⟩ := find?_enumFrom_spec
      (fun p => decide (|p.2| = maxAbsVal orderAggs)) orderAggs 0 x hx
    rw [Nat.sub_zero] at h2 h4
    rw [hx1] at h2 h4
    have habs : |x.2| = maxAbsVal orderAggs := of_decide_eq_true h3
    refine ⟨x.2, h2, ?_, habs, ?_⟩
    · intro h0
      rw [h0, abs_zero] at habs
      exact hm habs.symm
    · intro j w hj hw
      have hne := h4 j w hj hw
      rw [Nat.add_zero] at hne
      have hne2 : ¬(|w| = maxAbsVal orderAggs) := of_decide_eq_false hne
      have hle : |w| ≤ maxAbsVal orderAggs :=
        maxAbsVal_le orderAggs w (List.getElem?_mem hw)
      rw [habs]
      omega

theorem retrySendModel_ok (env : Nat → Except ErrorCode Unit) :
    ∀ (n k : Nat), (∃ j, j < n ∧ env (k + j) = .ok ()) →
      retrySendModel env k n = .ok () := by
  intro n
  induction n with
  | zero =>
    intro k h
    obtain ⟨j, hj, _⟩ := h
    omega
  | succ n ih =>
    intro k h
    obtain ⟨j, hj, hok⟩ := h
    cases henv : env k with
    | ok u => simp only [retrySendModel, henv]
    | error e =>
      have hj0 : j ≠ 0 := by
        intro hz
        subst hz
        rw [Nat.add_zero, henv] at hok
        exact Except.noConfusion hok
      have hn0 : n ≠ 0 := by omega
      simp only [retrySendModel, henv, if_neg hn0]
      exact ih (k + 1)
        ⟨j - 1, by omega, by rw [show k + 1 + (j - 1) = k + j by omega]; exact hok⟩

theorem retrySendModel_err (env : Nat → Except ErrorCode Unit) :
    ∀ (n k : Nat), 0 < n → (∀ j, j < n → env (k + j) ≠ .ok ()) →
      ∃ e, retrySendModel env k n = .error e := by
  intro n
  induction n with
  | zero => intro k h; omega
  | succ n ih =>
    intro k _ hall
    cases henv : env k with
    | ok u => exact absurd henv (hall 0 (Nat.succ_pos n))
    | error e =>
      by_cases hn : n = 0
      · subst hn
        exact ⟨e, by simp [retrySendModel, henv]⟩
      · simp only [retrySendModel, henv, if_neg hn]
        refine ih (k + 1) (by omega) ?_
        intro j hj
        have := hall (j + 1) (by omega)
        rwa [show k + (j + 1) = k + 1 + j by omega] at this

/-- C9: the order canceller is a no-op success issuing no instruction when
the account has no resting orders; otherwise it submits exactly one
force-cancel-all instruction, for the first market attaining the largest
absolute aggregate order size, with the fixed cancellation limit 32, using
a plain send-retry of up to 5 attempts, and an unrecovered failure reports
`CancelFailure`. -/
theorem claim_C9_cancel (orderAggs : List Int) (env : Nat → Except ErrorCode Unit) :
    (largestOpenOrder orderAggs = none → cancel orderAggs env = (none, .ok ())) ∧
    ((∀ v ∈ orderAggs, v = 0) → largestOpenOrder orderAggs = none) ∧
    (∀ idx, largestOpenOrder orderAggs = some idx →
      (cancel orderAggs env).1 = some ⟨idx, 32⟩ ∧
      ∃ v, orderAggs[idx]? = some v ∧ v ≠ 0 ∧ |v| = maxAbsVal orderAggs ∧
        ∀ j w, j < idx → orderAggs[j]? = some w → |w| < |v|) ∧
    (∀ idx, largestOpenOrder orderAggs = some idx →
      ((∃ j, j < 5 ∧ env j = .ok ()) → (cancel orderAggs env).2 = .ok ()) ∧
      ((∀ j, j < 5 → env j ≠ .ok ()) →
        (cancel orderAggs env).2 = .error .CancelFailure)) := by
  refine ⟨?_, ?_, ?_, ?_⟩
  · intro h
    unfold cancel
    rw [h]
  · intro h
    unfold largestOpenOrder
    rw [if_pos ((maxAbsVal_eq_zero_iff orderAggs).mpr h)]
  · intro idx hidx
    refine ⟨?_, largestOpenOrder_some_spec orderAggs idx hidx⟩
    unfold cancel
    rw [hidx]
    unfold cancel_orders
    cases hr : retrySendModel env 0 5 <;> rfl
  · intro idx hidx
    constructor
    · intro h
      obtain ⟨j, hj, hok⟩ := h
      have : retrySendModel env 0 5 = .ok () :=
        retrySendModel_ok env 5 0 ⟨j, hj, by rw [Nat.zero_add]; exact hok⟩
      unfold cancel
      rw [hidx]
      unfold cancel_orders
      rw [this]
    · intro h
      obtain ⟨e, he⟩ := retrySendModel_err env 5 0 (by omega)
        (fun j hj => by rw [Nat.zero_add]; exact h j hj)
      unfold cancel
      rw [hidx]
      unfold cancel_orders
      rw [he]

/-- Witness for C9 at aggregate order sizes `[3, -5, 5]` with the third
send attempt succeeding. -/
theorem claim_C9_cancel_witness :
    largestOpenOrder [3, -5, 5] = some 1 ∧
    (cancel [3, -5, 5]
      (fun k => if k = 2 then .ok () else .error .CancelFailure)).1 =
        some ⟨1, 32⟩ ∧
    (cancel [3, -5, 5]
      (fun k => if k = 2 then .ok () else .error .CancelFailure)).2 = .ok () :=
  ⟨by decide,
    ((claim_C9_cancel [3, -5, 5]
      (fun k => if k = 2 then .ok () else .error .CancelFailure)).2.2.1 1
      (by decide)).1,
    ((claim_C9_cancel [3, -5, 5]
      (fun k => if k = 2 then .ok () else .error .CancelFailure)).2.2.2 1
      (by decide)).1 ⟨2, by omega, by decide⟩⟩

/-- C6: a failure of the per-tick account-universe check is logged and the
loop continues, but a failure of the periodic account-list refresh is
unwrapped and panics, terminating the process - contradicting the claim
that every steady-state per-tick provider failure is converted to a log. -/
theorem claim_C6_refresh_panic :
    liquidate_loop_tick (.error ()) false (.ok ()) = .continued true ∧
    liquidate_loop_tick (.error ()) true (.ok ()) = .continued true ∧
    liquidate_loop_tick (.ok 5) true (.error ()) = .panicked ∧
    liquidate_loop_tick (.ok 5) true (.error ()) ≠ .continued true ∧
    liquidate_loop_tick (.ok 5) true (.error ()) ≠ .continued false := by
  refine ⟨rfl, rfl, rfl, by decide, by decide⟩

end ZoKeeper
